import Mathlib

/-!
Verification of the mkfw firmware-image assembler (src/unnamed/part_000).

The development shallowly embeds the C program over Nat and List Nat:
a C string (char pointer) is a List Nat of its byte values (the NUL
terminator excluded, so a well-formed argument contains no 0 byte);
machine integers are Nat values reduced modulo 2 to the relevant power
at the points where the C code truncates.
-/

/-! ## Constants from the source (enum at lines 150-158) -/

def kHeaderSize : Nat := 24

def kFirmwareDescriptionSize : Nat := 40

def kTileWidth : Nat := 86

def kTileHeight : Nat := 48

def kTileByteSize : Nat := kTileWidth * kTileHeight * 2

def kBufferSize : Nat := 10 * 1024 * 1024

def kULongMax : Nat := 2 ^ 64 - 1

def kLongMax : Nat := 2 ^ 63 - 1

/-! ## CRC32

Modelled from the spec: the function crc32 is declared in the source
(line 90, "implemented in crc32.c") but crc32.c is not under src/.
The spec (section 4.1) prescribes the standard CRC32 reflected
algorithm with internal initial value 0xFFFFFFFF; we model the
standard (zlib-convention) per-call form, whose incremental chaining
property realizes the accumulation from an initial value of zero that
the spec describes. Polynomial 0xEDB88320, byte fed in at the low end,
eight right-shift rounds per byte. -/

def kCrcPoly : Nat := 0xEDB88320

def kMask32 : Nat := 0xFFFFFFFF

def crcBitStep (c : Nat) : Nat :=
  if c % 2 = 1 then (c / 2) ^^^ kCrcPoly else c / 2

def crcBits : Nat → Nat → Nat
  | 0, c => c
  | n + 1, c => crcBits n (crcBitStep c)

def crc32Update (c b : Nat) : Nat := crcBits 8 (c ^^^ (b % 256))

def crc32 (crc : Nat) (buf : List Nat) : Nat :=
  (buf.foldl crc32Update ((crc % 2 ^ 32) ^^^ kMask32)) ^^^ kMask32

/-! ## strncpy

Embedding of strncpy(dst, src, n) where dst has been zero-filled
beforehand (the source always pairs strncpy with a prior memset, or
relies on strncpy zero padding): the result is the n bytes of dst.
A 0 byte in src acts as the C string terminator. -/

def strncpy : List Nat → Nat → List Nat
  | _, 0 => []
  | [], n + 1 => List.replicate (n + 1) 0
  | 0 :: _, n + 1 => List.replicate (n + 1) 0
  | c :: cs, n + 1 => c :: strncpy cs n

/-! ## strtoul with base 0

Modelled from the spec: strtoul is the C library routine (not part of
this repository); modelled per the C standard for base 0: optional
whitespace, optional sign, then a 0x/0X hexadecimal prefix, a leading
0 for octal, or decimal digits. The result is the parsed value (ULONG_MAX
with the range flag set on overflow, negated modulo 2 to the 64 for a
leading minus), together with the number of bytes consumed (0 when no
conversion was performed, matching endPtr == nptr). -/

def isSpaceByte (c : Nat) : Bool := c == 32 || (9 ≤ c && c ≤ 13)

def hexDigitVal (c : Nat) : Option Nat :=
  if 48 ≤ c ∧ c ≤ 57 then some (c - 48)
  else if 97 ≤ c ∧ c ≤ 102 then some (c - 87)
  else if 65 ≤ c ∧ c ≤ 70 then some (c - 55)
  else none

def digitValIn (base c : Nat) : Option Nat :=
  match hexDigitVal c with
  | some d => if d < base then some d else none
  | none => none

def parseDigits (base : Nat) : List Nat → Nat → Nat → Nat × Nat
  | [], acc, n => (acc, n)
  | c :: cs, acc, n =>
    match digitValIn base c with
    | some d => parseDigits base cs (acc * base + d) (n + 1)
    | none => (acc, n)

def strtoul0 (cs : List Nat) : Nat × Nat × Bool :=
  let ws := (cs.takeWhile isSpaceByte).length
  let afterWs := cs.drop ws
  let neg := afterWs.headD 0 == 45
  let sgn := if afterWs.headD 0 == 45 || afterWs.headD 0 == 43 then 1 else 0
  let s := afterWs.drop sgn
  let pre := ws + sgn
  let vn : Nat × Nat :=
    match s with
    | 48 :: x :: r =>
      if (x == 120 || x == 88) && (digitValIn 16 (r.headD 0)).isSome then
        let p := parseDigits 16 r 0 0
        (p.1, 2 + p.2)
      else
        parseDigits 8 (48 :: x :: r) 0 0
    | _ => parseDigits 10 s 0 0
  if vn.2 == 0 then (0, 0, false)
  else if vn.1 > kULongMax then (kULongMax, pre + vn.2, true)
  else
    let value := if neg then (kULongMax + 1 - vn.1 % (kULongMax + 1)) % (kULongMax + 1) else vn.1
    (value, pre + vn.2, false)

/-! ## Error kinds

The source reports every validation failure as RET_INVALID_PARAMS with
a distinct message; the spec names the message sites as error kinds
(section 7). Each constructor corresponds to one fprintf site of main. -/

inductive PErr where
  | ParseError
  | RangeError
  | ReservedType
  | InvalidSubtype
  | UnalignedSize
  | PayloadTooLarge
  deriving DecidableEq, Repr

/-! ## Argument literals (ASCII byte lists) -/

/-- Bytes of the literal app. -/
def litApp : List Nat := [97, 112, 112]

/-- Bytes of the literal data. -/
def litData : List Nat := [100, 97, 116, 97]

/-- Bytes of the literal factory. -/
def litFactory : List Nat := [102, 97, 99, 116, 111, 114, 121]

/-- Bytes of the prefix ota_ . -/
def litOtaPrefix : List Nat := [111, 116, 97, 95]

/-- Bytes of the literal ota. -/
def litOta : List Nat := [111, 116, 97]

/-- Bytes of the literal phy. -/
def litPhy : List Nat := [112, 104, 121]

/-- Bytes of the literal nvs. -/
def litNvs : List Nat := [110, 118, 115]

/-- Bytes of the literal auto. -/
def litAuto : List Nat := [97, 117, 116, 111]

/-! ## Partition type parsing (main, lines 653-683) -/

def parsePartType (s : List Nat) : Except PErr Nat :=
  let t? : Except PErr Nat :=
    if s = litApp then .ok 0
    else if s = litData then .ok 1
    else
      let r := strtoul0 s
      let value := r.1
      let consumed := r.2.1
      let erange := r.2.2
      if value == 0 && consumed == 0 then .error .ParseError
      else if value == kULongMax && erange then .error .RangeError
      else
        let t := value % 256
        if value ≠ t then .error .RangeError
        else .ok t
  match t? with
  | .error e => .error e
  | .ok t =>
    if t ≠ 0 ∧ t ≠ 1 ∧ t < 0x40 then .error .ReservedType else .ok t

/-! ## Partition subtype parsing (main, lines 690-770)

APP_OTA(X) in the source is 0x10 + (X and 0x0f); part.subtype is a
uint8_t, hence the reductions modulo 256. Bytes past the end of the
argument read the NUL terminator, modelled by getD with default 0. -/

def parsePartSubtype (ptype : Nat) (s : List Nat) : Except PErr Nat :=
  if ptype = 0 ∧ s = litFactory then .ok 0
  else if ptype = 0 ∧ s.take 4 = litOtaPrefix then
    let b4 := s.getD 4 0
    if b4 < 48 ∨ 57 < b4 then .error .InvalidSubtype
    else
      let st := b4 - 48
      let b5 := s.getD 5 0
      if b5 ≠ 0 then
        if s.getD 6 0 ≠ 0 ∨ st ≠ 1 ∨ b5 < 48 ∨ 53 < b5 then .error .InvalidSubtype
        else .ok (0x10 + (st * 10 + (b5 - 48)) % 16)
      else .ok (0x10 + st % 16)
  else if ptype = 1 ∧ s = litOta then .ok 0
  else if ptype = 1 ∧ s = litPhy then .ok 1
  else if ptype = 1 ∧ s = litNvs then .ok 2
  else
    let r := strtoul0 s
    let value := r.1
    let consumed := r.2.1
    let erange := r.2.2
    if value == 0 && consumed == 0 then .error .ParseError
    else if value == kLongMax && erange then .error .RangeError
    else
      let st := value % 256
      if s.getD consumed 0 ≠ 0 then .error .ParseError
      else if value ≠ st then .error .RangeError
      else if ptype = 0 then
        if st ≠ 0 ∧ (st < 0x10 ∨ 0x1f < st) then .error .InvalidSubtype else .ok st
      else if ptype = 1 then
        if 2 < st then .error .InvalidSubtype else .ok st
      else .ok st

/-! ## Partition size parsing, non-auto branch (main, lines 778-824)

part.length is 0 from the preceding memset when the suffix switch runs;
the switch multiplies part.length (not value), and the subsequent
assignment part.length = value overwrites whatever the switch computed.
The embedding reproduces this: the switch result is bound and then
discarded, exactly as in the source. -/

def parsePartSize (s : List Nat) : Except PErr Nat :=
  let r := strtoul0 s
  let value := r.1
  let consumed := r.2.1
  let erange := r.2.2
  if value == 0 && consumed == 0 then .error .ParseError
  else if value == kLongMax && erange then .error .RangeError
  else
    let length0 : Nat := 0
    let suffix := s.getD consumed 0
    if suffix ≠ 109 ∧ suffix ≠ 77 ∧ suffix ≠ 107 ∧ suffix ≠ 75 ∧ suffix ≠ 0 then
      .error .ParseError
    else
      let _deadStore :=
        if suffix = 109 ∨ suffix = 77 then length0 * 1024 * 1024 % 2 ^ 32
        else if suffix = 107 ∨ suffix = 75 then length0 * 1024 % 2 ^ 32
        else length0
      let len := value % 2 ^ 32
      if value ≠ len then .error .RangeError
      else if value &&& 0xffff ≠ 0 then .error .UnalignedSize
      else .ok len

/-! ## Auto sizing (main, lines 867-873); part.length is a uint32_t -/

def autoLength (l : Nat) : Nat :=
  if l &&& 0xffff ≠ 0 then ((l ||| 0xffff) + 1) % 2 ^ 32 else l

/-! ## Little-endian serialization (htole32 / htole16 followed by fwrite) -/

def encodeLE : Nat → Nat → List Nat
  | 0, _ => []
  | n + 1, v => v % 256 :: encodeLE n (v / 256)

def le16Bytes (v : Nat) : List Nat := [v % 256, v / 256 % 256]

/-! ## Partition record (odroid_partition_t, lines 92-104)

The label field holds the 16 bytes produced by strncpy at line 831. -/

structure odroid_partition_t where
  type : Nat
  subtype : Nat
  label : List Nat
  flags : Nat
  length : Nat
  deriving DecidableEq, Repr

/-- On-disk form of one partition header: type, subtype, two reserved
zero bytes, 16 label bytes, flags and length as little-endian uint32;
28 bytes in total, as the static_assert at line 104 states. -/
def serializePart (p : odroid_partition_t) : List Nat :=
  [p.type % 256, p.subtype % 256, 0, 0] ++ p.label ++ encodeLE 4 p.flags ++ encodeLE 4 p.length

/-- One partition tuple from the command line. The payload field holds
the bytes of the binary file named by the fifth argument; its length
plays the role of the ftell file size. -/
structure PartArgs where
  ptype : List Nat
  psubtype : List Nat
  psize : List Nat
  plabel : List Nat
  payload : List Nat

/-- Validation part of the per-partition loop of main (lines 649-882):
parse type, subtype and size, build the label field, truncate the file
size to uint32, apply auto sizing, and check the declared length
against the actual one. Returns the record and the truncated actual
length; no output bytes are produced on any error path. -/
def encodePartition (p : PartArgs) : Except PErr (odroid_partition_t × Nat) :=
  match parsePartType p.ptype with
  | .error e => .error e
  | .ok t =>
    match parsePartSubtype t p.psubtype with
    | .error e => .error e
    | .ok st =>
      match (if p.psize = litAuto then .ok 0 else parsePartSize p.psize : Except PErr Nat) with
      | .error e => .error e
      | .ok parsedSize =>
        let label := strncpy p.plabel 16
        let length32 := p.payload.length % 2 ^ 32
        let declared := if p.psize = litAuto then autoLength length32 else parsedSize
        if length32 > declared then .error .PayloadTooLarge
        else .ok (⟨t, st, label, 0, declared⟩, length32)

/-- Bytes streamed for one accepted partition: the 28-byte record, the
4-byte little-endian actual length, then the payload copied verbatim
by the fread/writeAndCrc loop at lines 903-917. -/
def partitionBytes (part : odroid_partition_t) (actual : Nat) (payload : List Nat) : List Nat :=
  serializePart part ++ encodeLE 4 actual ++ payload

/-! ## The output sink with CRC accumulation -/

/-- Output file contents together with the running checksum variable. -/
structure AsmState where
  out : List Nat
  crc : Nat
  deriving Repr

/-- A successful tracked write (writeAndCrc, lines 179-183, on the path
where fwrite accepts the whole buffer). -/
def emit (bytes : List Nat) (st : AsmState) : AsmState :=
  ⟨st.out ++ bytes, crc32 st.crc bytes⟩

/-- Embedding of writeAndCrc (lines 179-183) with an explicit sink:
accepted is the number of bytes the sink actually takes. The crc is
advanced over the whole buffer first, then fwrite(ptr, size, 1, stream)
is attempted; it reports success only when size is nonzero and the full
buffer was written. -/
def writeAndCrc (bytes : List Nat) (accepted : Nat) (st : AsmState) : Bool × AsmState :=
  let newCrc := crc32 st.crc bytes
  let written := bytes.take (min accepted bytes.length)
  let ok := decide (bytes.length ≠ 0 ∧ bytes.length ≤ accepted)
  (ok, ⟨st.out ++ written, newCrc⟩)

/-- The per-partition write loop of main: on a validation error the
state is returned unchanged together with the error, since main jumps
to cleanup before writing any byte of the offending partition. -/
def writeParts : List PartArgs → AsmState → AsmState × Option PErr
  | [], st => (st, none)
  | p :: rest, st =>
    match encodePartition p with
    | .error e => (st, some e)
    | .ok (part, actual) => writeParts rest (emit (partitionBytes part actual p.payload) st)

/-- Success path of main (lines 471-938): header, description and tile
go through writeAndCrc, then each partition, then the checksum is
appended with plain fwrite, excluded from its own computation. The
tile argument stands for the kTileByteSize bytes of sBuffer after the
png decode or raw read. -/
def assemble (header desc tile : List Nat) (parts : List PartArgs) : Except PErr (List Nat) :=
  match writeParts parts (emit tile (emit (strncpy desc 40) (emit (strncpy header 24) ⟨[], 0⟩))) with
  | (_, some e) => .error e
  | (st, none) => .ok (st.out ++ encodeLE 4 st.crc)

/-! ## Pixel transcoding (decodePng, lines 226-464)

RGB565(r, g, b) is the macro at line 226. Each decoded pixel is stored
with htole16, giving two output bytes per pixel. -/

def RGB565 (r g b : Nat) : Nat := (r <<< 11) ||| (g <<< 5) ||| b

/-- One pixel of the UPNG_RGB8 / UPNG_RGBA8 case (lines 261-277):
r8, g8, b8, a are the source channel bytes, with a = 0xFF for RGB8. -/
def rgb8Pixel (r8 g8 b8 a : Nat) : Nat :=
  let r := (r8 * a / 0xFF) >>> 3
  let g0 := ((g8 * a / 0xFF) >>> 3) <<< 1
  let g := g0 ||| (g0 >>> 5)
  let b := (b8 * a / 0xFF) >>> 3
  RGB565 r g b

/-- Output bytes of one RGB8/RGBA8 pixel as stored in sBuffer. -/
def rgb8PixelBytes (r8 g8 b8 a : Nat) : List Nat := le16Bytes (rgb8Pixel r8 g8 b8 a)

/-- First pixel of one UPNG_LUMINANCE4 source byte (lines 346-355),
computed from the high nibble. -/
def lum4PixelHi (byte : Nat) : Nat :=
  let v := (byte >>> 4) &&& 0x0F
  let r := (v <<< 1) ||| (v >>> 3)
  let g := (r <<< 1) ||| (r >>> 4)
  let b := r
  RGB565 r g b

/-- Second pixel of one UPNG_LUMINANCE4 source byte (lines 356-364),
computed from the low nibble. -/
def lum4PixelLo (byte : Nat) : Nat :=
  let v := (byte >>> 0) &&& 0x0F
  let r := (v <<< 1) ||| (v >>> 3)
  let g := (r <<< 1) ||| (r >>> 4)
  let b := r
  RGB565 r g b

/-- One pixel of the UPNG_LUMINANCE8 case (lines 369-384): the source
byte is shifted and masked exactly as in the 4-bit case, so only the
high nibble contributes. -/
def lum8Pixel (byte : Nat) : Nat :=
  let v := (byte >>> 4) &&& 0x0F
  let r := (v <<< 1) ||| (v >>> 3)
  let g := (r <<< 1) ||| (r >>> 4)
  let b := r
  RGB565 r g b

/-- Output bytes of one LUMINANCE8 pixel as stored in sBuffer. -/
def lum8PixelBytes (byte : Nat) : List Nat := le16Bytes (lum8Pixel byte)

/-- Claim C8 reading of the green channel: the alpha-scaled green
right-shifted by 2 bits, then the duplicated low bit applied
(g OR g shifted right by 5). Stated from the words of the claim, to be
compared with rgb8Pixel. -/
def claimRgb8Pixel (r8 g8 b8 a : Nat) : Nat :=
  let r := (r8 * a / 0xFF) >>> 3
  let g0 := (g8 * a / 0xFF) >>> 2
  let g := g0 ||| (g0 >>> 5)
  let b := (b8 * a / 0xFF) >>> 3
  RGB565 r g b

/-! ## Helper lemmas: CRC32 stays below 2 to the 32 and chains over append -/

theorem crcBitStep_lt {c : Nat} (h : c < 2 ^ 32) : crcBitStep c < 2 ^ 32 := by
  unfold crcBitStep
  split
  · exact Nat.xor_lt_two_pow (by omega) (by norm_num [kCrcPoly])
  · omega

theorem crcBits_lt : ∀ (n : Nat) {c : Nat}, c < 2 ^ 32 → crcBits n c < 2 ^ 32
  | 0, _, h => h
  | n + 1, _, h => crcBits_lt n (crcBitStep_lt h)

theorem crc32Update_lt {c : Nat} (b : Nat) (h : c < 2 ^ 32) : crc32Update c b < 2 ^ 32 :=
  crcBits_lt 8 (Nat.xor_lt_two_pow h (by have : b % 256 < 256 := Nat.mod_lt _ (by norm_num); omega))

theorem foldl_crc32Update_lt : ∀ (buf : List Nat) {c : Nat}, c < 2 ^ 32 →
    buf.foldl crc32Update c < 2 ^ 32
  | [], _, h => h
  | b :: rest, _, h => foldl_crc32Update_lt rest (crc32Update_lt b h)

theorem crc32_lt (c : Nat) (buf : List Nat) : crc32 c buf < 2 ^ 32 := by
  unfold crc32
  exact Nat.xor_lt_two_pow
    (foldl_crc32Update_lt buf
      (Nat.xor_lt_two_pow (Nat.mod_lt _ (by norm_num)) (by norm_num [kMask32])))
    (by norm_num [kMask32])


theorem crc32_append (c : Nat) (a b : List Nat) :
    crc32 (crc32 c a) b = crc32 c (a ++ b) := by
  have hlt : crc32 c a < 2 ^ 32 := crc32_lt c a
  simp only [crc32] at hlt ⊢
  rw [Nat.mod_eq_of_lt hlt, Nat.xor_cancel_right, List.foldl_append]

theorem crc32_nil_zero : crc32 0 [] = 0 := by decide

/-! ## Helper lemmas: low 16 bits -/

theorem land_ffff (l : Nat) : l &&& 0xffff = l % 65536 := by
  have h : (0xffff : Nat) = 2 ^ 16 - 1 := by norm_num
  have h2 : (65536 : Nat) = 2 ^ 16 := by norm_num
  rw [h, h2, Nat.and_pow_two_sub_one_eq_mod]

theorem testBit_chunk_low {q r i : Nat} (_hr : r < 65536) (hi : i < 16) :
    (65536 * q + r).testBit i = r.testBit i := by
  rw [Nat.testBit_to_div_mod, Nat.testBit_to_div_mod, decide_eq_decide]
  have hpow : (65536 : Nat) = 2 ^ i * 2 ^ (16 - i) := by
    rw [← pow_add, show i + (16 - i) = 16 from by omega]
    norm_num
  have hrw : 65536 * q + r = 2 ^ i * (2 ^ (16 - i) * q) + r := by rw [hpow]; ring
  rw [hrw, Nat.mul_add_div (by positivity)]
  obtain ⟨k, hk⟩ : ∃ k, 16 - i = k + 1 := ⟨16 - i - 1, by omega⟩
  rw [hk, pow_succ']
  rw [show 2 * 2 ^ k * q = 2 * (2 ^ k * q) from by ring]
  omega

theorem testBit_chunk_high {q r : Nat} (i : Nat) (hr : r < 65536) :
    (65536 * q + r).testBit (16 + i) = q.testBit i := by
  rw [Nat.testBit_to_div_mod, Nat.testBit_to_div_mod, decide_eq_decide]
  rw [show (2 : Nat) ^ (16 + i) = 65536 * 2 ^ i from by rw [pow_add]; norm_num]
  rw [← Nat.div_div_eq_div_mul, Nat.mul_add_div (by norm_num), Nat.div_eq_of_lt hr,
    Nat.add_zero]

theorem lor_ffff_decomp (l : Nat) : l ||| 0xffff = 65536 * (l / 65536) + 65535 := by
  have hbit : ∀ i : Nat, Nat.testBit 65535 i = decide (i < 16) := by
    intro i
    rw [show (65535 : Nat) = 2 ^ 16 - 1 from by norm_num, Nat.testBit_two_pow_sub_one]
  apply Nat.eq_of_testBit_eq
  intro i
  rw [Nat.testBit_lor]
  rcases Nat.lt_or_ge i 16 with hi | hi
  · rw [testBit_chunk_low (by norm_num) hi, hbit]
    simp [hi]
  · obtain ⟨j, rfl⟩ : ∃ j, i = 16 + j := ⟨i - 16, by omega⟩
    rw [testBit_chunk_high j (by norm_num), hbit]
    conv_lhs => rw [← Nat.div_add_mod l 65536]
    rw [testBit_chunk_high j (Nat.mod_lt _ (by norm_num))]
    simp

theorem autoLength_dvd (l : Nat) : autoLength l % 65536 = 0 := by
  unfold autoLength
  rw [land_ffff, lor_ffff_decomp, show (2 : Nat) ^ 32 = 4294967296 from by norm_num]
  split
  · omega
  · omega

/-- Round-up characterization of auto sizing, valid whenever the
computed length did not wrap past 2 to the 32 (equivalently, whenever
the subsequent actual-vs-declared check can pass). -/
theorem autoLength_eq_roundup {l : Nat} (hl : l < 2 ^ 32) (hle : l ≤ autoLength l) :
    autoLength l = 65536 * ((l + 65535) / 65536) := by
  unfold autoLength at hle ⊢
  rw [land_ffff, lor_ffff_decomp, show (2 : Nat) ^ 32 = 4294967296 from by norm_num] at hle ⊢
  rw [show (2 : Nat) ^ 32 = 4294967296 from by norm_num] at hl
  by_cases h : l % 65536 = 0
  · simp only [h, ne_eq, not_true_eq_false, if_false] at hle ⊢
    omega
  · simp only [h, ne_eq, not_false_eq_true, if_true] at hle ⊢
    omega

deriving instance DecidableEq for Except

/-! ## Helper lemmas: strncpy -/

theorem strncpy_length : ∀ (s : List Nat) (n : Nat), (strncpy s n).length = n
  | [], 0 => rfl
  | [], n + 1 => by simp [strncpy]
  | 0 :: _, 0 => rfl
  | 0 :: _, n + 1 => by simp [strncpy]
  | (_ + 1) :: _, 0 => rfl
  | (c + 1) :: cs, n + 1 => by
    have h : strncpy ((c + 1) :: cs) (n + 1) = (c + 1) :: strncpy cs n := rfl
    rw [h, List.length_cons, strncpy_length cs n]

theorem strncpy_eq (s : List Nat) (n : Nat) (h : 0 ∉ s) :
    strncpy s n = s.take n ++ List.replicate (n - s.length) 0 := by
  induction s generalizing n with
  | nil => cases n <;> simp [strncpy]
  | cons c cs ih =>
    have hc : c ≠ 0 := fun hc => h (hc ▸ List.mem_cons_self c cs)
    cases n with
    | zero => simp [strncpy]
    | succ n =>
      obtain ⟨m, rfl⟩ := Nat.exists_eq_succ_of_ne_zero hc
      have hunf : strncpy ((m + 1) :: cs) (n + 1) = (m + 1) :: strncpy cs n := rfl
      rw [hunf, List.take_succ_cons, List.length_cons, Nat.succ_sub_succ, List.cons_append]
      exact congrArg _ (ih n (fun hm => h (List.mem_cons_of_mem _ hm)))

/-! ## Helper lemmas: the write loop -/

theorem emit_crc_inv {st : AsmState} (bytes : List Nat) (h : st.crc = crc32 0 st.out) :
    (emit bytes st).crc = crc32 0 (emit bytes st).out := by
  simp only [emit, h, crc32_append]

theorem writeParts_crc_inv : ∀ (parts : List PartArgs) (st : AsmState),
    st.crc = crc32 0 st.out →
    ((writeParts parts st).1).crc = crc32 0 ((writeParts parts st).1).out
  | [], _, h => h
  | p :: rest, st, h => by
    simp only [writeParts]
    cases hE : encodePartition p with
    | error e => exact h
    | ok pr =>
      obtain ⟨part, actual⟩ := pr
      exact writeParts_crc_inv rest _ (emit_crc_inv _ h)

theorem writeParts_out_append : ∀ (parts : List PartArgs) (st : AsmState),
    ∃ l, ((writeParts parts st).1).out = st.out ++ l
  | [], st => ⟨[], by simp [writeParts]⟩
  | p :: rest, st => by
    simp only [writeParts]
    cases hE : encodePartition p with
    | error e => exact ⟨[], by simp⟩
    | ok pr =>
      obtain ⟨part, actual⟩ := pr
      obtain ⟨l, hl⟩ := writeParts_out_append rest (emit (partitionBytes part actual p.payload) st)
      exact ⟨partitionBytes part actual p.payload ++ l, by
        rw [hl]; simp [emit, List.append_assoc]⟩

/-! ## Claim C1 -/

/-- C1: for every successfully assembled image, the trailing 4-byte
little-endian checksum field is the CRC32 of all preceding bytes of the
output, accumulated incrementally in write order from an initial
accumulator value of zero, the checksum field itself excluded. -/
theorem C1_checksum_roundtrip (header desc tile : List Nat) (parts : List PartArgs)
    (out : List Nat) (hok : assemble header desc tile parts = .ok out) :
    4 ≤ out.length ∧
    out.drop (out.length - 4) = encodeLE 4 (crc32 0 (out.take (out.length - 4))) := by
  unfold assemble at hok
  set st0 := emit tile (emit (strncpy desc 40) (emit (strncpy header 24) ⟨[], 0⟩)) with hst0
  have hinv0 : st0.crc = crc32 0 st0.out := by
    apply emit_crc_inv
    apply emit_crc_inv
    apply emit_crc_inv
    exact crc32_nil_zero.symm
  cases hwp : writeParts parts st0 with
  | mk st err =>
    rw [hwp] at hok
    cases err with
    | some e => simp at hok
    | none =>
      simp only [Except.ok.injEq] at hok
      have hcrc : st.crc = crc32 0 st.out := by
        have h := writeParts_crc_inv parts st0 hinv0
        rw [hwp] at h
        exact h
      have hlen4 : (encodeLE 4 st.crc).length = 4 := rfl
      subst hok
      constructor
      · simp [hlen4]
      · have hl : (st.out ++ encodeLE 4 st.crc).length - 4 = st.out.length := by
          rw [List.length_append, hlen4]
          omega
        rw [hl, List.take_left, List.drop_left, hcrc]

/-- Concrete successful assembly used to instantiate C1. -/
def sampleOut : List Nat := ((assemble [] [] [] []).toOption).getD []

theorem C1_checksum_roundtrip_witness :
    4 ≤ sampleOut.length ∧
    sampleOut.drop (sampleOut.length - 4) =
      encodeLE 4 (crc32 0 (sampleOut.take (sampleOut.length - 4))) :=
  C1_checksum_roundtrip [] [] [] [] sampleOut rfl

/-! ## Claim C4 -/

/-- C4 (code bug): the claim says a length argument with suffix k or m
declares the parsed number multiplied by 1024 or 1048576 and checks
64K alignment on the multiplied value. In the source the multiplication
is applied to part.length before the assignment part.length = value
overwrites it, so the suffix is ignored: the argument 64k (bytes
54, 52, 107) is rejected as unaligned even though 64 * 1024 = 65536 is
aligned, and the argument 65536k (bytes 54, 53, 53, 51, 54, 107) is
accepted with declared length 65536 instead of 65536 * 1024. -/
theorem C4_size_suffix_ignored :
    parsePartSize [54, 52, 107] = .error .UnalignedSize ∧
    parsePartSize [54, 53, 53, 51, 54, 107] = .ok 65536 := by decide

/-! ## Claim C7 -/

/-- C7 counterexample: a sink write that fails after accepting zero of
the two bytes still advances the CRC accumulator (from 0 to the CRC of
both bytes), contradicting the claim that the accumulator state is not
updated beyond the bytes actually written and that a write that writes
nothing leaves the accumulator unchanged. The operation does return
failure, as claimed. -/
theorem C7_crc_advances_on_failed_write :
    (writeAndCrc [1, 2] 0 ⟨[], 0⟩).1 = false ∧
    (writeAndCrc [1, 2] 0 ⟨[], 0⟩).2.out = [] ∧
    (writeAndCrc [1, 2] 0 ⟨[], 0⟩).2.crc ≠ 0 := by decide

/-- C7 amended: writeAndCrc returns failure if the sink write fails
(and also when asked to write zero bytes), but the CRC accumulator is
always advanced over the entire byte sequence passed, independent of
how many bytes the sink actually accepted. -/
theorem C7_tracked_write_amended (bytes : List Nat) (accepted : Nat) (st : AsmState)
    (hinv : st.crc = crc32 0 st.out) :
    (writeAndCrc bytes accepted st).2.crc = crc32 0 (st.out ++ bytes) ∧
    ((min accepted bytes.length < bytes.length ∨ bytes = []) →
      (writeAndCrc bytes accepted st).1 = false) := by
  constructor
  · simp only [writeAndCrc, hinv, crc32_append]
  · intro hfail
    simp only [writeAndCrc, decide_eq_false_iff_not, not_and]
    intro hne hle
    rcases hfail with h | h
    · omega
    · subst h
      exact hne rfl

theorem C7_tracked_write_amended_witness :
    (writeAndCrc [5] 0 ⟨[], 0⟩).2.crc = crc32 0 ([] ++ [5]) ∧
    ((min 0 (([5] : List Nat)).length < (([5] : List Nat)).length ∨ ([5] : List Nat) = []) →
      (writeAndCrc [5] 0 ⟨[], 0⟩).1 = false) :=
  C7_tracked_write_amended [5] 0 ⟨[], 0⟩ (by decide)

/-! ## Helper lemmas: the partition encoder -/

theorem parsePartSize_ok_aligned {s : List Nat} {v : Nat} (h : parsePartSize s = .ok v) :
    v % 65536 = 0 ∧ v < 2 ^ 32 := by
  simp only [parsePartSize] at h
  split at h
  · exact absurd h (by simp)
  · split at h
    · exact absurd h (by simp)
    · split at h
      · exact absurd h (by simp)
      · split at h
        · exact absurd h (by simp)
        · split at h
          · exact absurd h (by simp)
          · rename_i hland
            simp only [Except.ok.injEq] at h
            rw [land_ffff] at hland
            simp only [ne_eq, not_not] at hland
            constructor
            · omega
            · have hv : v = _ % 2 ^ 32 := h.symm
              rw [hv]
              exact Nat.mod_lt _ (by norm_num)

theorem encodePartition_ok_elim {p : PartArgs} {part : odroid_partition_t} {actual : Nat}
    (h : encodePartition p = .ok (part, actual)) :
    ∃ t st,
      parsePartType p.ptype = .ok t ∧
      parsePartSubtype t p.psubtype = .ok st ∧
      part.type = t ∧ part.subtype = st ∧
      part.label = strncpy p.plabel 16 ∧ part.flags = 0 ∧
      actual = p.payload.length % 2 ^ 32 ∧
      actual ≤ part.length ∧
      (p.psize = litAuto → part.length = autoLength actual) ∧
      (p.psize ≠ litAuto → parsePartSize p.psize = .ok part.length) := by
  cases hT : parsePartType p.ptype with
  | error e => simp [encodePartition, hT] at h
  | ok t =>
    cases hST : parsePartSubtype t p.psubtype with
    | error e => simp [encodePartition, hT, hST] at h
    | ok st =>
      by_cases hauto : p.psize = litAuto
      · simp only [encodePartition, hT, hST, hauto, if_true, eq_self_iff_true] at h
        split at h
        · exact absurd h (by simp)
        · rename_i hgt
          simp only [Except.ok.injEq, Prod.mk.injEq] at h
          obtain ⟨hpart, hactual⟩ := h
          subst hpart
          subst hactual
          simp only [gt_iff_lt, not_lt] at hgt
          exact ⟨t, st, rfl, hST, rfl, rfl, rfl, rfl, rfl, hgt, fun _ => rfl,
            fun hne => absurd hauto hne⟩
      · cases hSZ : parsePartSize p.psize with
        | error e => simp [encodePartition, hT, hST, hauto, hSZ] at h
        | ok psize =>
          simp only [encodePartition, hT, hST, if_neg hauto, hSZ] at h
          split at h
          · exact absurd h (by simp)
          · rename_i hgt
            simp only [Except.ok.injEq, Prod.mk.injEq] at h
            obtain ⟨hpart, hactual⟩ := h
            subst hpart
            subst hactual
            simp only [gt_iff_lt, not_lt] at hgt
            exact ⟨t, st, rfl, hST, rfl, rfl, rfl, rfl, rfl, hgt,
              fun ha => absurd ha hauto, fun _ => rfl⟩

theorem encodePartition_error_of_type {p : PartArgs} {e : PErr}
    (h : parsePartType p.ptype = .error e) : encodePartition p = .error e := by
  unfold encodePartition
  rw [h]

theorem writeParts_stops {p : PartArgs} {e : PErr} (rest : List PartArgs) (st : AsmState)
    (h : encodePartition p = .error e) : writeParts (p :: rest) st = (st, some e) := by
  simp only [writeParts, h]

theorem take_append_length {α : Type} (a b : List α) {n : Nat} (h : a.length = n) :
    (a ++ b).take n = a := by
  subst h
  exact List.take_left a b

theorem drop_append_length {α : Type} (a b : List α) {n : Nat} (h : a.length = n) :
    (a ++ b).drop n = b := by
  subst h
  exact List.drop_left a b

/-- Closed form of the encoder on an app/factory/auto partition: only
the payload length decides the outcome. -/
theorem encodePartition_app_factory_auto (lbl payload : List Nat) :
    encodePartition ⟨litApp, litFactory, litAuto, lbl, payload⟩ =
      if payload.length % 2 ^ 32 > autoLength (payload.length % 2 ^ 32) then
        .error .PayloadTooLarge
      else .ok (⟨0, 0, strncpy lbl 16, 0, autoLength (payload.length % 2 ^ 32)⟩,
        payload.length % 2 ^ 32) := rfl

/-! ## Claim C2 -/

/-- Partition arguments whose payload is 2 to the 32 plus one bytes. -/
def hugePart : PartArgs :=
  ⟨litApp, litFactory, litAuto, [108], List.replicate (2 ^ 32 + 1) 0⟩

/-- C2 counterexample: with a payload one byte longer than 4 GiB, the
uint32 cast of the ftell size wraps to 1, auto sizing declares 65536,
the declared-vs-actual check compares the wrapped value and passes,
and the encoder accepts a record whose true payload byte length
exceeds the declared length — refuting the claim that the actual byte
length never exceeds the declared length for records that reach the
output. -/
theorem C2_payload_wrap_counterexample :
    encodePartition hugePart = .ok (⟨0, 0, strncpy [108] 16, 0, 65536⟩, 1) ∧
    ¬ (hugePart.payload.length ≤ 65536) := by
  have hlen : (List.replicate (2 ^ 32 + 1) (0 : Nat)).length = 2 ^ 32 + 1 :=
    List.length_replicate _ _
  constructor
  · show encodePartition ⟨litApp, litFactory, litAuto, [108], List.replicate (2 ^ 32 + 1) 0⟩ = _
    rw [encodePartition_app_factory_auto, hlen,
      show (2 ^ 32 + 1) % 2 ^ 32 = 1 from by norm_num]
    decide
  · show ¬ ((List.replicate (2 ^ 32 + 1) (0 : Nat)).length ≤ 65536)
    rw [hlen]
    norm_num

/-- C2 amended: for every partition record accepted by the encoder,
the declared length field is a multiple of 65536 and the payload byte
length reduced modulo 2 to the 32 (the uint32 cast of the ftell size,
which is also the emitted actual-length field) is at most the declared
length; for payloads smaller than 4 GiB that reduced value is the
payload byte length itself, so the original bound holds there. On any
validation error the write loop returns its state unchanged together
with the error: assembly aborts before any bytes of the offending
partition are written. -/
theorem C2_partition_invariants :
    (∀ (p : PartArgs) (part : odroid_partition_t) (actual : Nat),
      encodePartition p = .ok (part, actual) →
      part.length % 65536 = 0 ∧
      p.payload.length % 2 ^ 32 ≤ part.length ∧
      actual = p.payload.length % 2 ^ 32 ∧
      (p.payload.length < 2 ^ 32 → p.payload.length ≤ part.length))
  ∧ (∀ (p : PartArgs) (rest : List PartArgs) (st : AsmState) (e : PErr),
      encodePartition p = .error e → writeParts (p :: rest) st = (st, some e)) := by
  constructor
  · intro p part actual hok
    obtain ⟨t, st, hT, hST, htype, hsub, hlab, hfl, hact, hle, hA, hN⟩ :=
      encodePartition_ok_elim hok
    have halign : part.length % 65536 = 0 := by
      by_cases hauto : p.psize = litAuto
      · rw [hA hauto]
        exact autoLength_dvd actual
      · exact (parsePartSize_ok_aligned (hN hauto)).1
    refine ⟨halign, by omega, hact, ?_⟩
    intro hlen
    rw [← Nat.mod_eq_of_lt hlen]
    omega
  · intro p rest st e he
    exact writeParts_stops rest st he

/-- One-byte app/factory/auto partition with label bytes of lbl. -/
def onebytePart : PartArgs := ⟨litApp, litFactory, litAuto, [108, 98, 108], [0]⟩

theorem C2_partition_invariants_witness :
    (⟨0, 0, strncpy [108, 98, 108] 16, 0, 65536⟩ : odroid_partition_t).length % 65536 = 0 ∧
    onebytePart.payload.length % 2 ^ 32 ≤
      (⟨0, 0, strncpy [108, 98, 108] 16, 0, 65536⟩ : odroid_partition_t).length ∧
    1 = onebytePart.payload.length % 2 ^ 32 ∧
    (onebytePart.payload.length < 2 ^ 32 →
      onebytePart.payload.length ≤
        (⟨0, 0, strncpy [108, 98, 108] 16, 0, 65536⟩ : odroid_partition_t).length) :=
  C2_partition_invariants.1 onebytePart ⟨0, 0, strncpy [108, 98, 108] 16, 0, 65536⟩ 1
    (by decide)

/-! ## Claim C3 -/

/-- C3: when the length argument is the literal auto and the encoder
accepts the partition, the declared length equals the (uint32) actual
length rounded up to the next multiple of 65536, and is kept unchanged
when the actual length is already a multiple of 65536; in particular a
65536-byte payload yields declared length 65536, not 131072. -/
theorem C3_auto_sizing :
    (∀ (p : PartArgs) (part : odroid_partition_t) (actual : Nat),
      p.psize = litAuto →
      encodePartition p = .ok (part, actual) →
      part.length = 65536 * ((actual + 65535) / 65536) ∧
      (actual % 65536 = 0 → part.length = actual))
  ∧ autoLength 65536 = 65536 ∧ autoLength 65536 ≠ 131072 := by
  refine ⟨?_, by decide, by decide⟩
  intro p part actual hauto hok
  obtain ⟨t, st, hT, hST, _, _, _, _, hact, hle, hA, _⟩ := encodePartition_ok_elim hok
  have hlt : actual < 2 ^ 32 := by
    rw [hact]
    exact Nat.mod_lt _ (by norm_num)
  have hlen := hA hauto
  rw [hlen] at hle ⊢
  constructor
  · exact autoLength_eq_roundup hlt hle
  · intro hal
    unfold autoLength
    rw [land_ffff]
    simp [hal]

theorem C3_auto_sizing_witness :
    (⟨0, 0, strncpy [108, 98, 108] 16, 0, 65536⟩ : odroid_partition_t).length =
      65536 * ((1 + 65535) / 65536) ∧
    (1 % 65536 = 0 →
      (⟨0, 0, strncpy [108, 98, 108] 16, 0, 65536⟩ : odroid_partition_t).length = 1) :=
  C3_auto_sizing.1 onebytePart ⟨0, 0, strncpy [108, 98, 108] 16, 0, 65536⟩ 1 rfl (by decide)

/-! ## Claim C10 -/

/-- C10: every fixed-size text field (24-byte header, 40-byte firmware
description, 16-byte partition label) is written at exactly its fixed
size and equals the input truncated to that size, zero padded at the
end when shorter (so a longer input is silently truncated and a
full-length input gets no terminating zero inside the field); the
header and description fields are the first 24 and the next 40 bytes
of every successfully assembled output, and the label field of every
accepted record is the strncpy image of the label argument. -/
theorem C10_fixed_size_fields :
    (∀ s : List Nat, 0 ∉ s →
      ((strncpy s 24).length = 24 ∧
        strncpy s 24 = s.take 24 ++ List.replicate (24 - s.length) 0) ∧
      ((strncpy s 40).length = 40 ∧
        strncpy s 40 = s.take 40 ++ List.replicate (40 - s.length) 0) ∧
      ((strncpy s 16).length = 16 ∧
        strncpy s 16 = s.take 16 ++ List.replicate (16 - s.length) 0))
  ∧ (∀ header desc tile parts out, assemble header desc tile parts = .ok out →
      out.take 24 = strncpy header 24 ∧ (out.drop 24).take 40 = strncpy desc 40)
  ∧ (∀ (p : PartArgs) (part : odroid_partition_t) (actual : Nat),
      encodePartition p = .ok (part, actual) → part.label = strncpy p.plabel 16) := by
  refine ⟨?_, ?_, ?_⟩
  · intro s h
    exact ⟨⟨strncpy_length s 24, strncpy_eq s 24 h⟩, ⟨strncpy_length s 40, strncpy_eq s 40 h⟩,
      ⟨strncpy_length s 16, strncpy_eq s 16 h⟩⟩
  · intro header desc tile parts out hok
    unfold assemble at hok
    cases hwp : writeParts parts
        (emit tile (emit (strncpy desc 40) (emit (strncpy header 24) ⟨[], 0⟩))) with
    | mk st err =>
      rw [hwp] at hok
      cases err with
      | some e => simp at hok
      | none =>
        simp only [Except.ok.injEq] at hok
        obtain ⟨l, hl⟩ := writeParts_out_append parts
          (emit tile (emit (strncpy desc 40) (emit (strncpy header 24) ⟨[], 0⟩)))
        rw [hwp] at hl
        simp only [emit, List.nil_append, List.append_assoc] at hl
        subst hok
        rw [hl]
        constructor
        · rw [List.append_assoc, take_append_length _ _ (strncpy_length header 24)]
        · rw [List.append_assoc, drop_append_length _ _ (strncpy_length header 24),
            List.append_assoc, take_append_length _ _ (strncpy_length desc 40)]
  · intro p part actual hok
    obtain ⟨t, st, _, _, _, _, hlab, _, _, _, _, _⟩ := encodePartition_ok_elim hok
    exact hlab

theorem C10_fixed_size_fields_witness :
    ((strncpy [104, 105] 24).length = 24 ∧
      strncpy [104, 105] 24 =
        ([104, 105] : List Nat).take 24 ++
          List.replicate (24 - ([104, 105] : List Nat).length) 0) ∧
    ((strncpy [104, 105] 40).length = 40 ∧
      strncpy [104, 105] 40 =
        ([104, 105] : List Nat).take 40 ++
          List.replicate (40 - ([104, 105] : List Nat).length) 0) ∧
    ((strncpy [104, 105] 16).length = 16 ∧
      strncpy [104, 105] 16 =
        ([104, 105] : List Nat).take 16 ++
          List.replicate (16 - ([104, 105] : List Nat).length) 0) :=
  C10_fixed_size_fields.1 [104, 105] (by decide)

/-! ## Auxiliary numeral inputs

Constructors of decimal and 0x-hexadecimal ASCII argument strings,
used to quantify the acceptance theorems over all 8-bit values. These
are test-input generators, not part of the source embedding. -/

def decBytesAux : Nat → Nat → List Nat → List Nat
  | 0, _, acc => acc
  | fuel + 1, n, acc =>
    if n < 10 then (48 + n) :: acc
    else decBytesAux fuel (n / 10) ((48 + n % 10) :: acc)

/-- Decimal ASCII bytes of n. -/
def decBytes (n : Nat) : List Nat := decBytesAux (n + 1) n []

def hexDigitByte (d : Nat) : Nat := if d < 10 then 48 + d else 87 + d

def hexBytesAux : Nat → Nat → List Nat → List Nat
  | 0, _, acc => acc
  | fuel + 1, n, acc =>
    if n < 16 then hexDigitByte n :: acc
    else hexBytesAux fuel (n / 16) (hexDigitByte (n % 16) :: acc)

/-- Hexadecimal ASCII bytes of n with the 0x prefix. -/
def hexBytes (n : Nat) : List Nat := 48 :: 120 :: hexBytesAux (n + 1) n []

/-! ## Claim C5 -/

set_option maxRecDepth 100000 in
/-- C5: partition type parsing accepts the literals app (mapped to 0)
and data (mapped to 1) and numeric values, decimal or 0x/0X hex, that
fit an 8-bit field; every numeric value in the reserved range 2 to 63
is rejected with the reserved-type error, and the rejection happens
before any bytes of that partition are written (the write loop returns
its state unchanged); every numeric value in 64 to 255 is accepted;
256 does not fit the 8-bit field and is rejected as out of range. -/
theorem C5_type_parsing :
    (parsePartType litApp = .ok 0 ∧ parsePartType litData = .ok 1)
  ∧ (∀ v < 64, 2 ≤ v →
      parsePartType (decBytes v) = .error .ReservedType ∧
      parsePartType (hexBytes v) = .error .ReservedType)
  ∧ (∀ v < 256, (v ≤ 1 ∨ 64 ≤ v) →
      parsePartType (decBytes v) = .ok v ∧ parsePartType (hexBytes v) = .ok v)
  ∧ (parsePartType (decBytes 256) = .error .RangeError ∧
      parsePartType (hexBytes 256) = .error .RangeError)
  ∧ (parsePartType [48, 88, 53] = .error .ReservedType ∧
      parsePartType [48, 88, 52, 53] = .ok 69)
  ∧ (∀ (p : PartArgs) (rest : List PartArgs) (st : AsmState) (e : PErr),
      parsePartType p.ptype = .error e → writeParts (p :: rest) st = (st, some e)) := by
  refine ⟨by decide, by decide, by decide, by decide, by decide, ?_⟩
  intro p rest st e he
  exact writeParts_stops rest st (encodePartition_error_of_type he)

theorem C5_type_parsing_witness :
    parsePartType (decBytes 5) = .error .ReservedType ∧
    parsePartType (hexBytes 5) = .error .ReservedType :=
  C5_type_parsing.2.1 5 (by decide) (by decide)

/-! ## Claim C6 -/

theorem parsePartSubtype_app_sound {s : List Nat} {v : Nat}
    (h : parsePartSubtype 0 s = .ok v) : v = 0 ∨ (16 ≤ v ∧ v ≤ 31) := by
  simp only [parsePartSubtype] at h
  norm_num at h
  repeat' split at h
  all_goals first
    | (simp only [Except.ok.injEq] at h; omega)
    | exact absurd h (by simp)

theorem parsePartSubtype_data_sound {s : List Nat} {v : Nat}
    (h : parsePartSubtype 1 s = .ok v) : v ≤ 2 := by
  simp only [parsePartSubtype] at h
  norm_num at h
  repeat' split at h
  all_goals first
    | (simp only [Except.ok.injEq] at h; omega)
    | exact absurd h (by simp)

theorem parsePartSubtype_custom_eq {t : Nat} (h0 : t ≠ 0) (h1 : t ≠ 1) (s : List Nat) :
    parsePartSubtype t s = parsePartSubtype 64 s := by
  simp [parsePartSubtype, h0, h1]

set_option maxRecDepth 100000 in
theorem parsePartSubtype_custom64 : ∀ v < 256,
    parsePartSubtype 64 (decBytes v) = .ok v ∧ parsePartSubtype 64 (hexBytes v) = .ok v := by
  decide

set_option maxRecDepth 100000 in
/-- C6: for an app partition the subtype argument is accepted exactly
for the literal factory (0), the literals ota_0 to ota_15 (0x10 to
0x1F, two-digit values only 10 to 15, so ota_16 is rejected), and
numeric values equal to 0 or between 0x10 and 0x1F; every accepted app
subtype value lies in that set. For data, the literals ota, phy and
nvs map to 0, 1 and 2, a numeric value is accepted exactly when it is
at most 2, and every accepted value is at most 2. For custom types (64
and above) every 8-bit numeric subtype, decimal or hex, is accepted. -/
theorem C6_subtype_parsing :
    (parsePartSubtype 0 litFactory = .ok 0)
  ∧ (∀ n < 16, parsePartSubtype 0 (litOtaPrefix ++ decBytes n) = .ok (16 + n))
  ∧ (parsePartSubtype 0 (litOtaPrefix ++ [49, 54]) = .error .InvalidSubtype)
  ∧ (∀ v < 256,
      parsePartSubtype 0 (decBytes v) =
        (if v = 0 ∨ (16 ≤ v ∧ v ≤ 31) then .ok v else .error .InvalidSubtype) ∧
      parsePartSubtype 0 (hexBytes v) =
        (if v = 0 ∨ (16 ≤ v ∧ v ≤ 31) then .ok v else .error .InvalidSubtype))
  ∧ (∀ (s : List Nat) (v : Nat), parsePartSubtype 0 s = .ok v → v = 0 ∨ (16 ≤ v ∧ v ≤ 31))
  ∧ (parsePartSubtype 1 litOta = .ok 0 ∧ parsePartSubtype 1 litPhy = .ok 1 ∧
      parsePartSubtype 1 litNvs = .ok 2)
  ∧ (∀ v < 256,
      parsePartSubtype 1 (decBytes v) =
        (if v ≤ 2 then .ok v else .error .InvalidSubtype))
  ∧ (∀ (s : List Nat) (v : Nat), parsePartSubtype 1 s = .ok v → v ≤ 2)
  ∧ (∀ t < 256, 64 ≤ t → ∀ v < 256,
      parsePartSubtype t (decBytes v) = .ok v ∧ parsePartSubtype t (hexBytes v) = .ok v) := by
  refine ⟨by decide, by decide, by decide, by decide, ?_, by decide, by decide, ?_, ?_⟩
  · exact fun s v h => parsePartSubtype_app_sound h
  · exact fun s v h => parsePartSubtype_data_sound h
  · intro t ht h64 v hv
    rw [parsePartSubtype_custom_eq (by omega) (by omega) (decBytes v),
      parsePartSubtype_custom_eq (by omega) (by omega) (hexBytes v)]
    exact parsePartSubtype_custom64 v hv

theorem C6_subtype_parsing_witness :
    parsePartSubtype 0 (decBytes 22) =
      (if (22 : Nat) = 0 ∨ (16 ≤ (22 : Nat) ∧ (22 : Nat) ≤ 31) then .ok 22
       else .error .InvalidSubtype) ∧
    parsePartSubtype 0 (hexBytes 22) =
      (if (22 : Nat) = 0 ∨ (16 ≤ (22 : Nat) ∧ (22 : Nat) ≤ 31) then .ok 22
       else .error .InvalidSubtype) :=
  C6_subtype_parsing.2.2.2.1 22 (by decide)

/-! ## Claim C8 -/

/-- C8 counterexample: a pure green source pixel with channel value 4
and alpha 255. The claim formula (alpha-scaled green shifted right by
2 bits, then the low bit duplicated from bit 5) gives the packed value
32, but the code computes the green field as the scaled channel
shifted right by 3 bits then left by 1 bit (clearing the low bit)
before the duplication, producing 0. -/
theorem C8_green_field_counterexample :
    rgb8Pixel 0 4 0 255 = 0 ∧ claimRgb8Pixel 0 4 0 255 = 32 ∧
    rgb8Pixel 0 4 0 255 ≠ claimRgb8Pixel 0 4 0 255 := by decide

/-- Bit-packing identity behind the RGB8 conversion, checked on the
bounded field ranges. -/
theorem rgb565_pack : ∀ p < 32, ∀ q < 32, ∀ s < 32,
    RGB565 p ((2 * q) ||| ((2 * q) >>> 5)) s = 2048 * p + 32 * (2 * q + q / 16) + s := by
  decide

/-- C8 amended: for every 8-bit RGB or RGBA source pixel the packed
value has red and blue fields equal to the alpha-scaled channels
divided by 8 (right shift by 3), and a green field equal to twice the
alpha-scaled green divided by 8 (right shift by 3 then left shift by
1), with the low bit then duplicated from bit 5 of that 6-bit value;
the two output bytes are the little-endian halves of the packed
value. In arithmetic form the value is
2048 * (r * a / 255 / 8) + 32 * (2 * (g * a / 255 / 8) +
g * a / 255 / 8 / 16) + b * a / 255 / 8. -/
theorem C8_rgb8_transcode_amended :
    ∀ r8 < 256, ∀ g8 < 256, ∀ b8 < 256, ∀ a < 256,
      rgb8Pixel r8 g8 b8 a =
        2048 * (r8 * a / 255 / 8) +
          32 * (2 * (g8 * a / 255 / 8) + g8 * a / 255 / 8 / 16) +
          b8 * a / 255 / 8 ∧
      rgb8PixelBytes r8 g8 b8 a =
        le16Bytes (2048 * (r8 * a / 255 / 8) +
          32 * (2 * (g8 * a / 255 / 8) + g8 * a / 255 / 8 / 16) +
          b8 * a / 255 / 8) := by
  intro r8 hr g8 hg b8 hb a ha
  have hra : r8 * a / 255 / 8 < 32 := by
    have h1 : r8 * a ≤ 255 * 255 := Nat.mul_le_mul (by omega) (by omega)
    omega
  have hga : g8 * a / 255 / 8 < 32 := by
    have h1 : g8 * a ≤ 255 * 255 := Nat.mul_le_mul (by omega) (by omega)
    omega
  have hba : b8 * a / 255 / 8 < 32 := by
    have h1 : b8 * a ≤ 255 * 255 := Nat.mul_le_mul (by omega) (by omega)
    omega
  have hsh3 : ∀ w : Nat, w >>> 3 = w / 8 := by
    intro w
    rw [Nat.shiftRight_eq_div_pow]
  have hsh1 : ∀ w : Nat, w <<< 1 = 2 * w := by
    intro w
    rw [Nat.shiftLeft_eq]
    ring
  have hval : rgb8Pixel r8 g8 b8 a =
      2048 * (r8 * a / 255 / 8) +
        32 * (2 * (g8 * a / 255 / 8) + g8 * a / 255 / 8 / 16) +
        b8 * a / 255 / 8 := by
    simp only [rgb8Pixel, hsh3, hsh1]
    exact rgb565_pack _ hra _ hga _ hba
  exact ⟨hval, by unfold rgb8PixelBytes; rw [hval]⟩

theorem C8_rgb8_transcode_amended_witness :
    rgb8Pixel 10 20 30 255 =
      2048 * (10 * 255 / 255 / 8) +
        32 * (2 * (20 * 255 / 255 / 8) + 20 * 255 / 255 / 8 / 16) +
        30 * 255 / 255 / 8 ∧
    rgb8PixelBytes 10 20 30 255 =
      le16Bytes (2048 * (10 * 255 / 255 / 8) +
        32 * (2 * (20 * 255 / 255 / 8) + 20 * 255 / 255 / 8 / 16) +
        30 * 255 / 255 / 8) :=
  C8_rgb8_transcode_amended 10 (by decide) 20 (by decide) 30 (by decide) 255 (by decide)

/-! ## Claim C9 -/

/-- The per-pixel formula of claim C9 in arithmetic form: v is the
high nibble of the source byte, r replicates the top bit of v below
the 1-bit left shift, g adds one more replicated bit, b copies r, and
the value is packed as 5-6-5. -/
def claimLum8Pixel (byte : Nat) : Nat :=
  let v := byte / 16 % 16
  let r := 2 * v + v / 8
  let g := 2 * r + r / 16
  2048 * r + 32 * g + r

set_option maxRecDepth 100000 in
theorem lum8Pixel_eq_claim : ∀ b < 256, lum8Pixel b = claimLum8Pixel b := by decide

set_option maxRecDepth 100000 in
/-- C9: every 8-bit grayscale source byte produces one output pixel
computed from only its high nibble by the claimed bit-replication
formula, stored as two little-endian bytes; any two source bytes with
equal high nibbles give identical pixels, and the 8-bit path computes
exactly what the 4-bit path computes on the same nibble. -/
theorem C9_lum8_high_nibble :
    (∀ byte < 256, lum8Pixel byte = claimLum8Pixel byte ∧
      lum8PixelBytes byte = le16Bytes (claimLum8Pixel byte))
  ∧ (∀ b1 < 256, ∀ b2 < 256, b1 / 16 = b2 / 16 → lum8Pixel b1 = lum8Pixel b2)
  ∧ (∀ byte < 256, lum8Pixel byte = lum4PixelHi byte ∧
      lum8Pixel byte = lum4PixelLo (byte / 16)) := by
  refine ⟨?_, ?_, by decide⟩
  · intro b hb
    refine ⟨lum8Pixel_eq_claim b hb, ?_⟩
    unfold lum8PixelBytes
    rw [lum8Pixel_eq_claim b hb]
  · intro b1 h1 b2 h2 heq
    rw [lum8Pixel_eq_claim b1 h1, lum8Pixel_eq_claim b2 h2]
    simp only [claimLum8Pixel, heq]

theorem C9_lum8_high_nibble_witness :
    lum8Pixel 0x37 = lum8Pixel 0x3F :=
  C9_lum8_high_nibble.2.1 0x37 (by decide) 0x3F (by decide) (by decide)
